import Mathlib

/-!
Verification development for the neffint module `fixed_grid_fourier_integral`.

The Python source is embedded shallowly over exact real and complex numbers:
  * numpy float arrays become functions `ι → ℝ` (with `ι` a finite index type),
  * complex arrays become functions into `ℂ`,
  * machine epsilon of float64 (`np.finfo(np.float64).eps`) becomes the exact
    rational `1 / 2 ^ 52`,
  * a Python exception becomes an `Except.error` carrying the exception message.

The scipy routine `pchip_interpolate` is an external collaborator; it is kept
abstract as a parameter of type `PchipPrimitive`.
-/

open Classical

noncomputable section

/-- Source constant `MAX_TAYLOR_ITERATIONS = 1000`. -/
def MAX_TAYLOR_ITERATIONS : ℕ := 1000

/-- Source: `rel_tolerance = np.finfo(x.dtype).eps`, the float64 machine epsilon. -/
def rel_tolerance : ℝ := 1 / 2 ^ 52

/-- Source loop state `jx_to_n`: starts at `(1j*x)**0 = 1`, updated by
`jx_to_n *= 1j*xx` at the end of each iteration, so after `n` updates it
holds `(1j*x)**n`. -/
def jxToN (x : ℝ) : ℕ → ℂ
  | 0 => 1
  | n + 1 => jxToN x n * (Complex.I * (x : ℂ))

/-- Source loop state `inv_factorial`: starts at `1.`, updated by
`inv_factorial /= n + 1` at the end of iteration `n`, so at iteration `n`
it holds `1/n!`. -/
def invFactorial : ℕ → ℝ
  | 0 => 1
  | n + 1 => invFactorial n / (n + 1)

/-- Source loop state `abs_x_to_n_plus_1`: starts at `np.abs(xx)`, updated by
`abs_x_to_n_plus_1 *= np.abs(xx)`, so at iteration `n` it holds `|x|^(n+1)`. -/
def absXpow (x : ℝ) : ℕ → ℝ
  | 0 => |x|
  | n + 1 => absXpow x n * |x|

/-- Partial sums of the Lambda Taylor series.  `lambdaSum x m` is the value of
`result[taylor_mask]` after the additions of iterations `0, ..., m-1`; the term
added at iteration `n` is `1/(n+2) * jx_to_n * inv_factorial`. -/
def lambdaSum (x : ℝ) : ℕ → ℂ
  | 0 => 0
  | n + 1 => lambdaSum x n + 1 / ((n : ℂ) + 2) * jxToN x n * (invFactorial n : ℂ)

/-- Partial sums of the Phi Taylor series; the term added at iteration `n` is
`(n+6)/((n+3)*(n+4)) * jx_to_n * inv_factorial`. -/
def phiSum (x : ℝ) : ℕ → ℂ
  | 0 => 0
  | n + 1 => phiSum x n + ((n : ℂ) + 6) / (((n : ℂ) + 3) * ((n : ℂ) + 4)) * jxToN x n * (invFactorial n : ℂ)

/-- Partial sums of the Psi Taylor series; the term added at iteration `n` is
`- 1/((n+3)*(n+4)) * jx_to_n * inv_factorial`. -/
def psiSum (x : ℝ) : ℕ → ℂ
  | 0 => 0
  | n + 1 => psiSum x n - 1 / (((n : ℂ) + 3) * ((n : ℂ) + 4)) * jxToN x n * (invFactorial n : ℂ)

/-- Source: `remaining_term_bound = abs_x_to_n_plus_1*exp_abs_x * inv_factorial * 1/((n+3)*(n+1))`
in `_lambda`. -/
def lambdaBound (x : ℝ) (n : ℕ) : ℝ :=
  absXpow x n * Real.exp |x| * invFactorial n * (1 / (((n : ℝ) + 3) * ((n : ℝ) + 1)))

/-- Source: `phi_remaining_terms_bound = 2 * abs_x_to_n_plus_1 * exp_abs_x * inv_factorial / ((n+1)*(n+5))`. -/
def phiBound (x : ℝ) (n : ℕ) : ℝ :=
  2 * absXpow x n * Real.exp |x| * invFactorial n / (((n : ℝ) + 1) * ((n : ℝ) + 5))

/-- Source: `psi_remaining_terms_bound = abs_x_to_n_plus_1 * exp_abs_x * inv_factorial / ((n+1)*(n+4)*(n+5))`. -/
def psiBound (x : ℝ) (n : ℕ) : ℝ :=
  absXpow x n * Real.exp |x| * invFactorial n / (((n : ℝ) + 1) * ((n : ℝ) + 4) * ((n : ℝ) + 5))

/-- Elementwise convergence test of `_lambda` at iteration `n`:
`remaining_term_bound < rel_tolerance * min(|Re result|, |Im result|)`, where
`result` already includes the term added at iteration `n`. -/
def lambdaConv (x : ℝ) (n : ℕ) : Prop :=
  lambdaBound x n < rel_tolerance * min |(lambdaSum x (n + 1)).re| |(lambdaSum x (n + 1)).im|

/-- Elementwise convergence test for Phi at iteration `n`. -/
def phiConv (x : ℝ) (n : ℕ) : Prop :=
  phiBound x n < rel_tolerance * min |(phiSum x (n + 1)).re| |(phiSum x (n + 1)).im|

/-- Elementwise convergence test for Psi at iteration `n`. -/
def psiConv (x : ℝ) (n : ℕ) : Prop :=
  psiBound x n < rel_tolerance * min |(psiSum x (n + 1)).re| |(psiSum x (n + 1)).im|

/-- Closed form used by `_lambda` for `|x| >= 1`:
`-1j*exp_jx/xx + (exp_jx-1)/xx**2`. -/
def lambdaClosed (x : ℝ) : ℂ :=
  -Complex.I * Complex.exp (Complex.I * (x : ℂ)) / (x : ℂ) +
    (Complex.exp (Complex.I * (x : ℂ)) - 1) / (x : ℂ) ^ 2

/-- Closed form used by `_phi_and_psi` for `|x| >= 1`:
`(-1j*xx**3 * exp_jx - 6j*xx*(exp_jx+1) + 12*(exp_jx-1))/xx**4`. -/
def phiClosed (x : ℝ) : ℂ :=
  (-Complex.I * (x : ℂ) ^ 3 * Complex.exp (Complex.I * (x : ℂ)) -
      6 * Complex.I * (x : ℂ) * (Complex.exp (Complex.I * (x : ℂ)) + 1) +
      12 * (Complex.exp (Complex.I * (x : ℂ)) - 1)) / (x : ℂ) ^ 4

/-- Closed form used by `_phi_and_psi` for `|x| >= 1`:
`(xx**2 * exp_jx + 2j*xx*(2*exp_jx+1) - 6*(exp_jx-1))/xx**4`. -/
def psiClosed (x : ℝ) : ℂ :=
  ((x : ℂ) ^ 2 * Complex.exp (Complex.I * (x : ℂ)) +
      2 * Complex.I * (x : ℂ) * (2 * Complex.exp (Complex.I * (x : ℂ)) + 1) -
      6 * (Complex.exp (Complex.I * (x : ℂ)) - 1)) / (x : ℂ) ^ 4

/-- Batch convergence test for Phi: `np.all(phi_remaining_terms_bound < rel_tolerance * min_phi_component)`
over the Taylor sub-batch `x[np.abs(x) < 1]`. -/
def phiAllConv {ι : Type} (x : ι → ℝ) (n : ℕ) : Prop :=
  ∀ i, |x i| < 1 → phiConv (x i) n

/-- Batch convergence test for Psi over the Taylor sub-batch. -/
def psiAllConv {ι : Type} (x : ι → ℝ) (n : ℕ) : Prop :=
  ∀ i, |x i| < 1 → psiConv (x i) n

/-- Number of input elements routed to the Taylor branch,
`np.count_nonzero(np.abs(x) < 1.0)`, i.e. the size of `x[taylor_mask]`. -/
def taylorCard {ι : Type} [Fintype ι] (x : ι → ℝ) : ℕ :=
  (Finset.univ.filter fun i => |x i| < 1).card

/-- Truth value of the numpy comparison array in the `if` of `_lambda`
(line `if remaining_term_bound < rel_tolerance * min_component:`).
Python coerces the boolean comparison array to a single `bool`; for a
one-element array this is the elementwise comparison, for an empty array it is
`False` (numpy 1.x semantics, with a DeprecationWarning), and for two or more
elements `bool()` raises a ValueError.  `lambdaCheck` is the truthy outcome;
the ValueError case is handled separately via `taylorCard x >= 2`. -/
def lambdaCheck {ι : Type} [Fintype ι] (x : ι → ℝ) (n : ℕ) : Prop :=
  taylorCard x = 1 ∧ ∀ i, |x i| < 1 → lambdaConv (x i) n

/-- One flag update of the `_phi_and_psi` loop: once a converged flag is set it
stays set and the corresponding accumulator is frozen; the recorded value is
the iteration index at which the batch first converged. -/
def updP (c : ℕ → Prop) (n : ℕ) : Option ℕ → Option ℕ
  | some a => some a
  | none => if c n then some n else none

/-- The `for n in range(MAX_TAYLOR_ITERATIONS+1)` loop of `_phi_and_psi`:
breaks at the top once both flags are set, otherwise updates each flag from its
convergence test at the current iteration.  The fuel argument is the number of
iterations remaining after the current one, so `ppLoop c₁ c₂ 1000 0 none none`
performs the checks for `n = 0, ..., 1000` exactly like the source loop.
Returns the pair of recorded stop iterations. -/
def ppLoop (c₁ c₂ : ℕ → Prop) : ℕ → ℕ → Option ℕ → Option ℕ → Option ℕ × Option ℕ
  | 0, n, p, q => if p.isSome ∧ q.isSome then (p, q) else (updP c₁ n p, updP c₂ n q)
  | f + 1, n, p, q =>
    if p.isSome ∧ q.isSome then (p, q)
    else ppLoop c₁ c₂ f (n + 1) (updP c₁ n p) (updP c₂ n q)

/-- Error message of `_phi_and_psi` (a Python RuntimeError). -/
def phiPsiErrorMessage : String := "Phi and Psi calculation failed to converge after 1000 iterations"

/-- Embedding of `_phi_and_psi`.  Elements with `|x| < 1` receive the Taylor
partial sum frozen at the batch stop iteration; the others receive the closed
form.  If either flag is still unset after the loop, the source raises
`RuntimeError(f"Phi and Psi calculation failed to converge after {MAX_TAYLOR_ITERATIONS} iterations")`. -/
def phi_and_psi {ι : Type} (x : ι → ℝ) : Except String ((ι → ℂ) × (ι → ℂ)) :=
  match ppLoop (phiAllConv x) (psiAllConv x) MAX_TAYLOR_ITERATIONS 0 none none with
  | (some a, some b) =>
    Except.ok
      (fun i => if |x i| < 1 then phiSum (x i) (a + 1) else phiClosed (x i),
       fun i => if |x i| < 1 then psiSum (x i) (b + 1) else psiClosed (x i))
  | _ => Except.error phiPsiErrorMessage

/-- numpy ValueError message produced by coercing a boolean array with more
than one element to `bool` in the `if` of `_lambda`. -/
def ambiguousTruthMessage : String := "The truth value of an array with more than one element is ambiguous. Use a.any() or a.all()"

/-- Error message of `_lambda` (a Python RuntimeError). -/
def lambdaErrorMessage : String := "Lambda calculation failed to converge after 1000 iterations"

/-- The `for n in range(MAX_TAYLOR_ITERATIONS+1)` loop of `_lambda`, returning
the value of `n` at loop exit, or `none` when the `if` on a boolean comparison
array with two or more elements raises a ValueError.  At the final iteration
(fuel `0`, `n = 1000`) the loop ends with `n = 1000` whether or not the check
succeeds, which is what the source code observes after the loop. -/
def lambdaExit {ι : Type} [Fintype ι] (x : ι → ℝ) : ℕ → ℕ → Option ℕ
  | 0, n => if 2 ≤ taylorCard x then none else some n
  | f + 1, n =>
    if 2 ≤ taylorCard x then none
    else if lambdaCheck x n then some n else lambdaExit x f (n + 1)

/-- Embedding of `_lambda`.  After the loop the source raises
`RuntimeError(...)` when `n == MAX_TAYLOR_ITERATIONS`; otherwise elements with
`|x| < 1` receive the Taylor partial sum through the exit iteration and the
others the closed form. -/
def lambda_fn {ι : Type} [Fintype ι] (x : ι → ℝ) : Except String (ι → ℂ) :=
  match lambdaExit x MAX_TAYLOR_ITERATIONS 0 with
  | none => Except.error ambiguousTruthMessage
  | some n =>
    if n = MAX_TAYLOR_ITERATIONS then Except.error lambdaErrorMessage
    else Except.ok fun i => if |x i| < 1 then lambdaSum (x i) (n + 1) else lambdaClosed (x i)

/-- Signature of the external collaborator `scipy.interpolate.pchip_interpolate`
restricted to the way this module calls it: real abscissas `xi` of length `N`,
real ordinates `yi` (with a trailing index of type `T`, the trailing axes of the
numpy array; the interpolation axis is axis 0), `Mx` evaluation points `x`, and
a derivative order.  A raised scipy exception is an `Except.error`. -/
def PchipPrimitive : Type 1 :=
  (T : Type) → (N : ℕ) → (xi : ℕ → ℝ) → (yi : ℕ → T → ℝ) →
    (Mx : ℕ) → (x : ℕ → ℝ) → (der : ℕ) → Except String (ℕ → T → ℝ)

/-- Embedding of `complex_pchip`: delegates to the real primitive separately on
`np.real(zi)` and `np.imag(zi)` at the same evaluation points and derivative
order, and recombines the results as `Re + 1j*Im`.  The first raised exception
propagates, as in Python evaluation order. -/
def complex_pchip (P : PchipPrimitive) (T : Type) (N : ℕ) (xi : ℕ → ℝ)
    (zi : ℕ → T → ℂ) (Mx : ℕ) (x : ℕ → ℝ) (der : ℕ) : Except String (ℕ → T → ℂ) :=
  match P T N xi (fun k τ => (zi k τ).re) Mx x der with
  | Except.error e => Except.error e
  | Except.ok a =>
    match P T N xi (fun k τ => (zi k τ).im) Mx x der with
    | Except.error e => Except.error e
    | Except.ok b => Except.ok fun m τ => ((a m τ : ℝ) : ℂ) + Complex.I * ((b m τ : ℝ) : ℂ)

/-- Embedding of `fourier_integral_inf_correction`:
`sign * np.exp(1j*times*omega_end) * (1j*func_value_end/times - func_derivative_end/times**2)`
with `sign = 1 if positive_inf else -1`, broadcast over the time axis (index
`Fin M`) and the trailing axes (index `T`). -/
def fourier_integral_inf_correction (M : ℕ) (T : Type) (times : Fin M → ℝ)
    (omega_end : ℝ) (func_value_end func_derivative_end : T → ℂ)
    (positive_inf : Bool) : Fin M → T → ℂ :=
  fun t τ =>
    (if positive_inf then (1 : ℂ) else -1) *
      Complex.exp (Complex.I * ((times t : ℝ) : ℂ) * ((omega_end : ℝ) : ℂ)) *
      (Complex.I * func_value_end τ / ((times t : ℝ) : ℂ) -
        func_derivative_end τ / ((times t : ℝ) : ℂ) ^ 2)

/-- Source: `delta_omegas = np.diff(omegas, axis=1)`. -/
def deltaOmega (omegas : ℕ → ℝ) (k : ℕ) : ℝ := omegas (k + 1) - omegas k

/-- Source: `x = delta_omegas*times`, the kernel argument batch of shape
`(M, N-1)` (the trailing broadcast axes of `x` have size one and are dropped). -/
def kernelArg (M N : ℕ) (times : Fin M → ℝ) (omegas : ℕ → ℝ) :
    Fin M × Fin (N - 1) → ℝ :=
  fun p => deltaOmega omegas (p.2 : ℕ) * times p.1

/-- The summed-over-frequencies base quadrature of
`fourier_integral_fixed_sampling_pchip` (lines 336-341 of the source):
`np.sum(delta_omegas*exp_omegas*(fv[:-1]*phi_minus_x*exp_x + fv[1:]*phi_x
 - delta_omegas*fd[:-1]*psi_minus_x*exp_x + delta_omegas*fd[1:]*psi_x), axis=1)`. -/
def filonBaseSum (M N : ℕ) (T : Type) (times : Fin M → ℝ) (omegas : ℕ → ℝ)
    (fv fd : ℕ → T → ℂ) (phi_x psi_x phi_minus_x psi_minus_x : Fin M × Fin (N - 1) → ℂ) :
    Fin M → T → ℂ :=
  fun t τ =>
    ∑ k : Fin (N - 1),
      ((deltaOmega omegas (k : ℕ) : ℝ) : ℂ) *
        Complex.exp (Complex.I * ((omegas (k : ℕ) : ℝ) : ℂ) * ((times t : ℝ) : ℂ)) *
        (fv (k : ℕ) τ * phi_minus_x (t, k) *
            Complex.exp (Complex.I * ((deltaOmega omegas (k : ℕ) * times t : ℝ) : ℂ)) +
          fv ((k : ℕ) + 1) τ * phi_x (t, k) -
          ((deltaOmega omegas (k : ℕ) : ℝ) : ℂ) * fd (k : ℕ) τ * psi_minus_x (t, k) *
            Complex.exp (Complex.I * ((deltaOmega omegas (k : ℕ) * times t : ℝ) : ℂ)) +
          ((deltaOmega omegas (k : ℕ) : ℝ) : ℂ) * fd ((k : ℕ) + 1) τ * psi_x (t, k))

/-- Embedding of `fourier_integral_fixed_sampling_pchip`.  Frequencies are
converted to angular frequencies, derivatives are obtained through
`complex_pchip` evaluated at the grid itself with derivative order 1, the
optional asymptotic corrections are added to the zero-initialised result, the
kernel batches `phi_and_psi(x)` and `phi_and_psi(-x)` are evaluated, and the
weighted sub-interval contributions are summed over the frequency axis.
Exceptions propagate in Python evaluation order. -/
def fourier_integral_fixed_sampling_pchip (P : PchipPrimitive) (M : ℕ) (T : Type)
    (N : ℕ) (times : Fin M → ℝ) (frequencies : ℕ → ℝ) (func_values : ℕ → T → ℂ)
    (pos_inf_correction_term neg_inf_correction_term : Bool) :
    Except String (Fin M → T → ℂ) :=
  let omegas : ℕ → ℝ := fun k => 2 * Real.pi * frequencies k
  match complex_pchip P T N omegas func_values N omegas 1 with
  | Except.error e => Except.error e
  | Except.ok func_derivatives =>
    let result0 : Fin M → T → ℂ := fun _ _ => 0
    let r1 : Fin M → T → ℂ :=
      if pos_inf_correction_term then
        fun t τ => result0 t τ +
          fourier_integral_inf_correction M T times (omegas (N - 1))
            (func_values (N - 1)) (func_derivatives (N - 1)) true t τ
      else result0
    let r2 : Fin M → T → ℂ :=
      if neg_inf_correction_term then
        fun t τ => r1 t τ +
          fourier_integral_inf_correction M T times (omegas 0)
            (func_values 0) (func_derivatives 0) false t τ
      else r1
    match phi_and_psi (kernelArg M N times omegas) with
    | Except.error e => Except.error e
    | Except.ok (phi_x, psi_x) =>
      match phi_and_psi (fun p => -kernelArg M N times omegas p) with
      | Except.error e => Except.error e
      | Except.ok (phi_minus_x, psi_minus_x) =>
        Except.ok fun t τ =>
          r2 t τ +
            filonBaseSum M N T times omegas func_values func_derivatives
              phi_x psi_x phi_minus_x psi_minus_x t τ

/-- Strict monotonicity of the first `N` entries of an array, the property the
spec requires of the frequency grid. -/
def StrictIncrOn (f : ℕ → ℝ) (N : ℕ) : Prop :=
  ∀ i j, i < j → j < N → f i < f j

/-- A trivial instance of the external interpolation collaborator, used to
instantiate hypotheses at concrete inputs: it accepts everything and returns
the zero array. -/
def trivialPrimitive : PchipPrimitive := fun _ _ _ _ _ _ _ => Except.ok fun _ _ => 0

/-- An instance of the external interpolation collaborator that enforces the
documented scipy contract: the abscissas must be strictly increasing,
otherwise a ValueError is raised. -/
def validatingPrimitive : PchipPrimitive := fun _ N xi _ _ _ _ =>
  if StrictIncrOn xi N then Except.ok fun _ _ => 0
  else Except.error ("x must be strictly increasing")

end

section Helpers

lemma absXpow_zero : ∀ n, absXpow 0 n = 0 := by
  intro n
  induction n with
  | zero => simp [absXpow]
  | succ n ih => simp [absXpow, ih]

lemma jxToN_zero : ∀ n, jxToN 0 (n + 1) = 0 := by
  intro n
  simp [jxToN]

lemma phiSum_zero : ∀ m, phiSum 0 (m + 1) = ((1 / 2 : ℝ) : ℂ) := by
  intro m
  induction m with
  | zero =>
    show phiSum 0 0 + _ = _
    simp [phiSum, jxToN, invFactorial]
    norm_num
  | succ m ih =>
    show phiSum 0 (m + 1) + _ = _
    rw [ih, jxToN_zero]
    ring

lemma psiSum_zero : ∀ m, psiSum 0 (m + 1) = ((-(1 / 12) : ℝ) : ℂ) := by
  intro m
  induction m with
  | zero =>
    show psiSum 0 0 - _ = _
    simp [psiSum, jxToN, invFactorial]
    norm_num
  | succ m ih =>
    show psiSum 0 (m + 1) - _ = _
    rw [ih, jxToN_zero]
    ring

lemma phiConv_zero_false (n : ℕ) : ¬ phiConv 0 n := by
  unfold phiConv
  have hb : phiBound 0 n = 0 := by
    unfold phiBound
    rw [absXpow_zero]
    ring
  rw [hb, phiSum_zero, Complex.ofReal_im, abs_zero,
    min_eq_right (abs_nonneg _), mul_zero]
  exact lt_irrefl 0

lemma psiConv_zero_false (n : ℕ) : ¬ psiConv 0 n := by
  unfold psiConv
  have hb : psiBound 0 n = 0 := by
    unfold psiBound
    rw [absXpow_zero]
    ring
  rw [hb, psiSum_zero, Complex.ofReal_im, abs_zero,
    min_eq_right (abs_nonneg _), mul_zero]
  exact lt_irrefl 0

lemma phiAllConv_of_zero_false {ι : Type} (x : ι → ℝ) (i : ι) (hi : x i = 0)
    (n : ℕ) : ¬ phiAllConv x n := by
  intro h
  have := h i (by rw [hi]; norm_num)
  rw [hi] at this
  exact phiConv_zero_false n this

lemma ppLoop_break (c₁ c₂ : ℕ → Prop) (a b : ℕ) :
    ∀ f n, ppLoop c₁ c₂ f n (some a) (some b) = (some a, some b) := by
  intro f n
  cases f <;> simp [ppLoop]

lemma ppLoop_all_zero (c₁ c₂ : ℕ → Prop) (h1 : c₁ 0) (h2 : c₂ 0) (f : ℕ) :
    ppLoop c₁ c₂ (f + 1) 0 none none = (some 0, some 0) := by
  have hu1 : updP c₁ 0 none = some 0 := by simp [updP, h1]
  have hu2 : updP c₂ 0 none = some 0 := by simp [updP, h2]
  rw [ppLoop]
  simp only [Option.isSome_none, Bool.false_eq_true, false_and, if_false, hu1, hu2]
  exact ppLoop_break c₁ c₂ 0 0 f 1

lemma ppLoop_fst_none (c₁ c₂ : ℕ → Prop) :
    ∀ f n q, (∀ k, n ≤ k → k ≤ n + f → ¬ c₁ k) →
      (ppLoop c₁ c₂ f n none q).1 = none := by
  intro f
  induction f with
  | zero =>
    intro n q h
    have hu : updP c₁ n none = none := by simp [updP, h n le_rfl (by omega)]
    rw [ppLoop]
    simp only [Option.isSome_none, Bool.false_eq_true, false_and, if_false, hu]
  | succ f ih =>
    intro n q h
    have hu : updP c₁ n none = none := by simp [updP, h n le_rfl (by omega)]
    rw [ppLoop]
    simp only [Option.isSome_none, Bool.false_eq_true, false_and, if_false, hu]
    exact ih (n + 1) _ fun k hk1 hk2 => h k (by omega) (by omega)

lemma ppLoop_snd_none (c₁ c₂ : ℕ → Prop) :
    ∀ f n p, (∀ k, n ≤ k → k ≤ n + f → ¬ c₂ k) →
      (ppLoop c₁ c₂ f n p none).2 = none := by
  intro f
  induction f with
  | zero =>
    intro n p h
    have hu : updP c₂ n none = none := by simp [updP, h n le_rfl (by omega)]
    rw [ppLoop]
    simp only [Option.isSome_none, Bool.false_eq_true, and_false, if_false, hu]
  | succ f ih =>
    intro n p h
    have hu : updP c₂ n none = none := by simp [updP, h n le_rfl (by omega)]
    rw [ppLoop]
    simp only [Option.isSome_none, Bool.false_eq_true, and_false, if_false, hu]
    exact ih (n + 1) _ fun k hk1 hk2 => h k (by omega) (by omega)

lemma phi_and_psi_error_of_phi {ι : Type} (x : ι → ℝ)
    (h : ∀ n, n ≤ MAX_TAYLOR_ITERATIONS → ¬ phiAllConv x n) :
    phi_and_psi x = Except.error phiPsiErrorMessage := by
  have h1 : (ppLoop (phiAllConv x) (psiAllConv x) MAX_TAYLOR_ITERATIONS 0 none none).1 = none :=
    ppLoop_fst_none _ _ _ _ _ fun k _ hk2 => h k (by omega)
  unfold phi_and_psi
  rcases hres : ppLoop (phiAllConv x) (psiAllConv x) MAX_TAYLOR_ITERATIONS 0 none none with ⟨p, q⟩
  rw [hres] at h1
  simp only at h1
  subst h1
  cases q <;> rfl

lemma phi_and_psi_error_of_psi {ι : Type} (x : ι → ℝ)
    (h : ∀ n, n ≤ MAX_TAYLOR_ITERATIONS → ¬ psiAllConv x n) :
    phi_and_psi x = Except.error phiPsiErrorMessage := by
  have h1 : (ppLoop (phiAllConv x) (psiAllConv x) MAX_TAYLOR_ITERATIONS 0 none none).2 = none :=
    ppLoop_snd_none _ _ _ _ _ fun k _ hk2 => h k (by omega)
  unfold phi_and_psi
  rcases hres : ppLoop (phiAllConv x) (psiAllConv x) MAX_TAYLOR_ITERATIONS 0 none none with ⟨p, q⟩
  rw [hres] at h1
  simp only at h1
  subst h1
  cases p <;> rfl

lemma phi_and_psi_all_closed {ι : Type} (x : ι → ℝ) (h : ∀ i, ¬ (|x i| < 1)) :
    phi_and_psi x =
      Except.ok (fun i => phiClosed (x i), fun i => psiClosed (x i)) := by
  have h1 : phiAllConv x 0 := fun i hi => absurd hi (h i)
  have h2 : psiAllConv x 0 := fun i hi => absurd hi (h i)
  unfold phi_and_psi MAX_TAYLOR_ITERATIONS
  rw [show (1000 : ℕ) = 999 + 1 from rfl,
    ppLoop_all_zero (phiAllConv x) (psiAllConv x) h1 h2 999]
  simp only
  congr 1
  refine Prod.ext ?_ ?_ <;> funext i <;> simp [h i]

lemma lambdaExit_multi {ι : Type} [Fintype ι] (x : ι → ℝ)
    (hc : 2 ≤ taylorCard x) : ∀ f n, lambdaExit x f n = none := by
  intro f n
  cases f <;> simp [lambdaExit, hc]

lemma lambdaExit_of_no_check {ι : Type} [Fintype ι] (x : ι → ℝ)
    (hc : taylorCard x < 2) :
    ∀ f n, (∀ k, n ≤ k → k < n + f → ¬ lambdaCheck x k) →
      lambdaExit x f n = some (n + f) := by
  intro f
  induction f with
  | zero =>
    intro n _
    simp [lambdaExit, Nat.not_le.2 hc]
  | succ f ih =>
    intro n h
    rw [lambdaExit, if_neg (Nat.not_le.2 hc), if_neg (h n le_rfl (by omega)),
      ih (n + 1) fun k hk1 hk2 => h k (by omega) (by omega)]
    congr 1
    omega

lemma fourier_integral_noflags (P : PchipPrimitive) (M : ℕ) (T : Type) (N : ℕ)
    (times : Fin M → ℝ) (frequencies : ℕ → ℝ) (func_values fd : ℕ → T → ℂ)
    (phi_x psi_x phi_minus_x psi_minus_x : Fin M × Fin (N - 1) → ℂ)
    (hd : complex_pchip P T N (fun k => 2 * Real.pi * frequencies k) func_values
      N (fun k => 2 * Real.pi * frequencies k) 1 = Except.ok fd)
    (hpp : phi_and_psi (kernelArg M N times (fun k => 2 * Real.pi * frequencies k)) =
      Except.ok (phi_x, psi_x))
    (hpm : phi_and_psi (fun p => -kernelArg M N times (fun k => 2 * Real.pi * frequencies k) p) =
      Except.ok (phi_minus_x, psi_minus_x)) :
    fourier_integral_fixed_sampling_pchip P M T N times frequencies func_values false false =
      Except.ok (filonBaseSum M N T times (fun k => 2 * Real.pi * frequencies k)
        func_values fd phi_x psi_x phi_minus_x psi_minus_x) := by
  unfold fourier_integral_fixed_sampling_pchip
  simp only [hd, hpp, hpm, Bool.false_eq_true, if_false]
  congr 1
  funext t τ
  simp

end Helpers

section CardLemmas

lemma taylorCard_single_two : taylorCard (fun _ : Fin 1 => (2 : ℝ)) = 0 := by
  unfold taylorCard
  have h : (Finset.univ.filter fun i : Fin 1 => |(fun _ : Fin 1 => (2 : ℝ)) i| < 1) = ∅ :=
    Finset.filter_eq_empty_iff.mpr (by intro i _; norm_num)
  rw [h, Finset.card_empty]

lemma taylorCard_mixed_ge_two : 2 ≤ taylorCard ![(1 / 2 : ℝ), 1 / 4, 2] := by
  unfold taylorCard
  have hsub : ({0, 1} : Finset (Fin 3)) ⊆
      Finset.univ.filter fun i => |(![(1 / 2 : ℝ), 1 / 4, 2]) i| < 1 := by
    intro i hi
    simp only [Finset.mem_insert, Finset.mem_singleton] at hi
    rcases hi with h | h <;> subst h <;> simp [Finset.mem_filter] <;>
      rw [abs_of_nonneg (by norm_num)] <;> norm_num
  calc (2 : ℕ) = ({0, 1} : Finset (Fin 3)).card := by decide
    _ ≤ _ := Finset.card_le_card hsub

end CardLemmas

/-- Claim C10: for every input array containing an element `x = 0` exactly
(for example when a time is 0, making the kernel argument `Δω·t` zero),
`phi_and_psi` raises the non-convergence error after exhausting all
iterations: at `x = 0` every Taylor term beyond the first is exactly zero, the
imaginary part of the accumulated sum stays exactly zero, and the remaining
term bound is exactly zero, so the strict comparison
`bound < rel_tolerance * min(|Re|, |Im|)` compares `0 < 0` and never holds. -/
theorem C10_phi_and_psi_raises_at_zero (m : ℕ) (x : Fin m → ℝ) (i : Fin m)
    (h : x i = 0) : phi_and_psi x = Except.error phiPsiErrorMessage :=
  phi_and_psi_error_of_phi x fun n _ => phiAllConv_of_zero_false x i h n

theorem C10_witness :
    (fun _ : Fin 1 => (0 : ℝ)) 0 = 0 ∧
      phi_and_psi (fun _ : Fin 1 => (0 : ℝ)) = Except.error phiPsiErrorMessage :=
  ⟨rfl, C10_phi_and_psi_raises_at_zero 1 (fun _ => 0) 0 rfl⟩

/-- Claim C2, failing-input evaluation: for the scalar input `x = 2` (so
`|x| >= 1`), `_lambda` does not return the closed form
`-i*e^{ix}/x + (e^{ix}-1)/x^2` as the claim states; the Taylor mask is empty,
the truth value of the empty comparison array is always `False`, the loop
exhausts all iterations and the function raises
`RuntimeError("Lambda calculation failed to converge after 1000 iterations")`,
contradicting its own docstring (which promises the Lambda value and reserves
the RuntimeError for an actual Taylor non-convergence). -/
theorem C2_lambda_raises_on_closed_branch :
    lambda_fn (fun _ : Fin 1 => (2 : ℝ)) = Except.error lambdaErrorMessage := by
  have hc : taylorCard (fun _ : Fin 1 => (2 : ℝ)) = 0 := taylorCard_single_two
  have hexit : lambdaExit (fun _ : Fin 1 => (2 : ℝ)) MAX_TAYLOR_ITERATIONS 0 =
      some (0 + MAX_TAYLOR_ITERATIONS) := by
    refine lambdaExit_of_no_check _ (by omega) MAX_TAYLOR_ITERATIONS 0 ?_
    intro k _ _ hk
    have h1 := hk.1
    rw [hc] at h1
    exact absurd h1 (by norm_num)
  unfold lambda_fn
  rw [hexit]
  simp

/-- Claim C3, failing-input evaluation: on the batched input
`[0.5, 0.25, 2.0]`, which mixes `|x| < 1` and `|x| >= 1` elements, `_lambda`
does not return a merged elementwise result: with two Taylor-branch elements
the convergence `if` coerces a two-element boolean comparison array to `bool`,
which raises a numpy ValueError on the first iteration.  (`_phi_and_psi` uses
`np.all` at the same place and is not affected.) -/
theorem C3_lambda_raises_on_mixed_batch :
    lambda_fn ![(1 / 2 : ℝ), 1 / 4, 2] = Except.error ambiguousTruthMessage := by
  unfold lambda_fn
  rw [lambdaExit_multi _ taylorCard_mixed_ge_two]

/-- Claim C6: whenever the Taylor series fails to meet its convergence bound
within the 1000-iteration cap, the kernel evaluation returns the convergence
error (it is an error value, never a silently returned numeric result, and the
single bounded loop is not retried); the error message carries the iteration
count (1000) and names the computation that failed (`Lambda`, respectively
`Phi and Psi`).  The hypothesis `taylorCard x < 2` restricts the Lambda part
to inputs on which the loop actually runs (with two or more Taylor elements
the array-truth ValueError preempts the convergence test). -/
theorem C6_convergence_error_carries_context (m mc : ℕ) (x : Fin m → ℝ)
    (y : Fin mc → ℝ) (hcard : taylorCard x < 2)
    (hlam : ∀ n, n < MAX_TAYLOR_ITERATIONS → ¬ lambdaCheck x n)
    (hpsi : (∀ n, n ≤ MAX_TAYLOR_ITERATIONS → ¬ phiAllConv y n) ∨
      (∀ n, n ≤ MAX_TAYLOR_ITERATIONS → ¬ psiAllConv y n)) :
    lambda_fn x = Except.error lambdaErrorMessage ∧
      phi_and_psi y = Except.error phiPsiErrorMessage := by
  constructor
  · have hexit : lambdaExit x MAX_TAYLOR_ITERATIONS 0 = some (0 + MAX_TAYLOR_ITERATIONS) :=
      lambdaExit_of_no_check x hcard MAX_TAYLOR_ITERATIONS 0
        fun k _ hk2 => hlam k (by omega)
    unfold lambda_fn
    rw [hexit]
    simp
  · rcases hpsi with h | h
    · exact phi_and_psi_error_of_phi y h
    · exact phi_and_psi_error_of_psi y h

theorem C6_witness :
    taylorCard (fun _ : Fin 1 => (2 : ℝ)) < 2 ∧
    (∀ n, n < MAX_TAYLOR_ITERATIONS → ¬ lambdaCheck (fun _ : Fin 1 => (2 : ℝ)) n) ∧
    (∀ n, n ≤ MAX_TAYLOR_ITERATIONS → ¬ phiAllConv (fun _ : Fin 1 => (0 : ℝ)) n) ∧
    lambda_fn (fun _ : Fin 1 => (2 : ℝ)) = Except.error lambdaErrorMessage ∧
    phi_and_psi (fun _ : Fin 1 => (0 : ℝ)) = Except.error phiPsiErrorMessage := by
  have hcard : taylorCard (fun _ : Fin 1 => (2 : ℝ)) < 2 := by
    rw [taylorCard_single_two]
    omega
  have hlam : ∀ n, n < MAX_TAYLOR_ITERATIONS → ¬ lambdaCheck (fun _ : Fin 1 => (2 : ℝ)) n := by
    intro n _ hk
    have h1 := hk.1
    rw [taylorCard_single_two] at h1
    exact absurd h1 (by norm_num)
  have hphi : ∀ n, n ≤ MAX_TAYLOR_ITERATIONS → ¬ phiAllConv (fun _ : Fin 1 => (0 : ℝ)) n :=
    fun n _ => phiAllConv_of_zero_false (fun _ => 0) 0 rfl n
  exact ⟨hcard, hlam, hphi,
    C6_convergence_error_carries_context 1 1 (fun _ => 2) (fun _ => 0) hcard hlam (Or.inl hphi)⟩

/-- Claim C4: `fourier_integral_inf_correction` returns
`sign * e^(i*t*omega_end) * (i*value_end/t - derivative_end/t^2)` with
`sign = +1` when `positive_inf` holds and `sign = -1` otherwise; `times`
(index `Fin M`) is broadcast against the trailing shape (index `T`), giving an
output of shape `(M, ...trailing...)` as expressed by the result type
`Fin M → T → ℂ`. -/
theorem C4_inf_correction_formula (M : ℕ) (T : Type) (times : Fin M → ℝ)
    (omega_end : ℝ) (value_end derivative_end : T → ℂ) (t : Fin M) (τ : T) :
    fourier_integral_inf_correction M T times omega_end value_end derivative_end true t τ =
      Complex.exp (Complex.I * ((times t : ℝ) : ℂ) * ((omega_end : ℝ) : ℂ)) *
        (Complex.I * value_end τ / ((times t : ℝ) : ℂ) -
          derivative_end τ / ((times t : ℝ) : ℂ) ^ 2) ∧
    fourier_integral_inf_correction M T times omega_end value_end derivative_end false t τ =
      -(Complex.exp (Complex.I * ((times t : ℝ) : ℂ) * ((omega_end : ℝ) : ℂ)) *
        (Complex.I * value_end τ / ((times t : ℝ) : ℂ) -
          derivative_end τ / ((times t : ℝ) : ℂ) ^ 2)) := by
  unfold fourier_integral_inf_correction
  constructor
  · simp
  · simp

/-- Claim C8: `fourier_integral` is deterministic and stateless; its output is
a function of its argument values alone, so two calls on (pointwise) identical
inputs return identical outputs.  In the pure embedding there is no mutable
state to share or mutate, so the value-determinism below is the observable
content of the claim. -/
theorem C8_deterministic (P : PchipPrimitive) (M : ℕ) (T : Type) (N : ℕ)
    (times1 times2 : Fin M → ℝ) (freqs1 freqs2 : ℕ → ℝ) (fv1 fv2 : ℕ → T → ℂ)
    (pos neg : Bool) (ht : ∀ t, times1 t = times2 t)
    (hf : ∀ k, freqs1 k = freqs2 k) (hv : ∀ k τ, fv1 k τ = fv2 k τ) :
    fourier_integral_fixed_sampling_pchip P M T N times1 freqs1 fv1 pos neg =
      fourier_integral_fixed_sampling_pchip P M T N times2 freqs2 fv2 pos neg := by
  have h1 : times1 = times2 := funext ht
  have h2 : freqs1 = freqs2 := funext hf
  have h3 : fv1 = fv2 := funext fun k => funext fun τ => hv k τ
  rw [h1, h2, h3]

theorem C8_witness :
    (∀ t : Fin 1, (fun _ : Fin 1 => (1 : ℝ)) t = (fun _ : Fin 1 => (1 : ℝ)) t) ∧
    (∀ k : ℕ, (fun n : ℕ => (n : ℝ)) k = (fun n : ℕ => (n : ℝ)) k) ∧
    (∀ (k : ℕ) (τ : Unit), (fun (_ : ℕ) (_ : Unit) => (1 : ℂ)) k τ =
      (fun (_ : ℕ) (_ : Unit) => (1 : ℂ)) k τ) ∧
    fourier_integral_fixed_sampling_pchip trivialPrimitive 1 Unit 2 (fun _ => 1)
        (fun n => (n : ℝ)) (fun _ _ => 1) true true =
      fourier_integral_fixed_sampling_pchip trivialPrimitive 1 Unit 2 (fun _ => 1)
        (fun n => (n : ℝ)) (fun _ _ => 1) true true :=
  ⟨fun _ => rfl, fun _ => rfl, fun _ _ => rfl,
    C8_deterministic trivialPrimitive 1 Unit 2 (fun _ => 1) (fun _ => 1)
      (fun n => (n : ℝ)) (fun n => (n : ℝ)) (fun _ _ => 1) (fun _ _ => 1) true true
      (fun _ => rfl) (fun _ => rfl) (fun _ _ => rfl)⟩

/-- Claim C5: `complex_pchip` returns exactly the real-primitive result on
`Re(zi)` plus `i` times the real-primitive result on `Im(zi)`, evaluated at
the same points with the same derivative order (and the same interpolation
axis, axis 0 of the embedding); and when the primitive returns the derivative
of its fitted monotone cubic (hypotheses `hfr`, `hfi`), the recombined output
at `derivative_order = 1` is the derivative of the complex fitted interpolant
`Re_fit + i*Im_fit` with respect to the abscissa variable. -/
theorem C5_complex_pchip_delegation (P : PchipPrimitive) (T : Type)
    (N Mx d : ℕ) (xi xe : ℕ → ℝ) (zi : ℕ → T → ℂ) (a b : ℕ → T → ℝ)
    (fr fi : T → ℝ → ℝ)
    (ha : P T N xi (fun k τ => (zi k τ).re) Mx xe d = Except.ok a)
    (hb : P T N xi (fun k τ => (zi k τ).im) Mx xe d = Except.ok b)
    (hfr : ∀ m τ, HasDerivAt (fr τ) (a m τ) (xe m))
    (hfi : ∀ m τ, HasDerivAt (fi τ) (b m τ) (xe m)) :
    complex_pchip P T N xi zi Mx xe d =
      Except.ok (fun m τ => ((a m τ : ℝ) : ℂ) + Complex.I * ((b m τ : ℝ) : ℂ)) ∧
    ∀ m τ, HasDerivAt
      (fun s : ℝ => ((fr τ s : ℝ) : ℂ) + Complex.I * ((fi τ s : ℝ) : ℂ))
      (((a m τ : ℝ) : ℂ) + Complex.I * ((b m τ : ℝ) : ℂ)) (xe m) := by
  constructor
  · unfold complex_pchip
    simp only [ha, hb]
  · intro m τ
    exact ((hfr m τ).ofReal_comp).add (((hfi m τ).ofReal_comp).const_mul Complex.I)

theorem C5_witness :
    trivialPrimitive Unit 1 (fun _ => 0)
        (fun k τ => ((fun (_ : ℕ) (_ : Unit) => (0 : ℂ)) k τ).re) 1 (fun _ => 0) 1 =
      Except.ok (fun (_ : ℕ) (_ : Unit) => (0 : ℝ)) ∧
    trivialPrimitive Unit 1 (fun _ => 0)
        (fun k τ => ((fun (_ : ℕ) (_ : Unit) => (0 : ℂ)) k τ).im) 1 (fun _ => 0) 1 =
      Except.ok (fun (_ : ℕ) (_ : Unit) => (0 : ℝ)) ∧
    (∀ (m : ℕ) (τ : Unit), HasDerivAt ((fun (_ : Unit) (_ : ℝ) => (0 : ℝ)) τ)
      ((fun (_ : ℕ) (_ : Unit) => (0 : ℝ)) m τ) ((fun _ : ℕ => (0 : ℝ)) m)) ∧
    (complex_pchip trivialPrimitive Unit 1 (fun _ => 0) (fun _ _ => 0) 1 (fun _ => 0) 1 =
      Except.ok (fun (m : ℕ) (τ : Unit) =>
        (((fun (_ : ℕ) (_ : Unit) => (0 : ℝ)) m τ : ℝ) : ℂ) +
          Complex.I * (((fun (_ : ℕ) (_ : Unit) => (0 : ℝ)) m τ : ℝ) : ℂ)) ∧
    ∀ (m : ℕ) (τ : Unit), HasDerivAt
      (fun s : ℝ => (((fun (_ : Unit) (_ : ℝ) => (0 : ℝ)) τ s : ℝ) : ℂ) +
        Complex.I * (((fun (_ : Unit) (_ : ℝ) => (0 : ℝ)) τ s : ℝ) : ℂ))
      ((((fun (_ : ℕ) (_ : Unit) => (0 : ℝ)) m τ : ℝ) : ℂ) +
        Complex.I * (((fun (_ : ℕ) (_ : Unit) => (0 : ℝ)) m τ : ℝ) : ℂ))
      ((fun _ : ℕ => (0 : ℝ)) m)) :=
  ⟨rfl, rfl, fun _ _ => hasDerivAt_const _ _,
    C5_complex_pchip_delegation trivialPrimitive Unit 1 1 1 (fun _ => 0) (fun _ => 0)
      (fun _ _ => 0) (fun _ _ => 0) (fun _ _ => 0) (fun _ _ => 0) (fun _ _ => 0)
      rfl rfl (fun _ _ => hasDerivAt_const _ _) (fun _ _ => hasDerivAt_const _ _)⟩

/-- Claim C7: a call of `fourier_integral` whose frequencies are not strictly
increasing fails with an invalid-input error instead of producing a numeric
result.  The check lives in the external interpolation collaborator (scipy
requires strictly increasing abscissas — hypothesis `hP`), which is invoked at
the derivative-computation step before any numeric assembly, so the error is
raised before any numeric result exists.  Length mismatches between
`frequencies` and `func_values` are not representable in this embedding (both
are total functions read on the same index range). -/
theorem C7_invalid_frequencies_fail (P : PchipPrimitive) (M : ℕ) (T : Type)
    (N : ℕ) (times : Fin M → ℝ) (frequencies : ℕ → ℝ) (func_values : ℕ → T → ℂ)
    (pos neg : Bool)
    (hP : ∀ (T2 : Type) (N2 : ℕ) (xi : ℕ → ℝ) (yi : ℕ → T2 → ℝ) (Mx : ℕ)
      (xe : ℕ → ℝ) (der : ℕ), ¬ StrictIncrOn xi N2 →
        ∃ e, P T2 N2 xi yi Mx xe der = Except.error e)
    (hbad : ¬ StrictIncrOn frequencies N) :
    ∃ e, fourier_integral_fixed_sampling_pchip P M T N times frequencies
      func_values pos neg = Except.error e := by
  have hpi : (0 : ℝ) < 2 * Real.pi := by positivity
  have hbadw : ¬ StrictIncrOn (fun k => 2 * Real.pi * frequencies k) N := by
    intro h
    refine hbad fun i j hij hj => ?_
    have h2 := h i j hij hj
    exact (mul_lt_mul_left hpi).mp h2
  obtain ⟨e, he⟩ := hP T N (fun k => 2 * Real.pi * frequencies k)
    (fun k τ => (func_values k τ).re) N (fun k => 2 * Real.pi * frequencies k) 1 hbadw
  refine ⟨e, ?_⟩
  unfold fourier_integral_fixed_sampling_pchip complex_pchip
  simp only [he]

theorem C7_witness :
    (∀ (T2 : Type) (N2 : ℕ) (xi : ℕ → ℝ) (yi : ℕ → T2 → ℝ) (Mx : ℕ)
      (xe : ℕ → ℝ) (der : ℕ), ¬ StrictIncrOn xi N2 →
        ∃ e, validatingPrimitive T2 N2 xi yi Mx xe der = Except.error e) ∧
    ¬ StrictIncrOn (fun n => if n = 0 then (1 : ℝ) else 0) 2 ∧
    ∃ e, fourier_integral_fixed_sampling_pchip validatingPrimitive 1 Unit 2
      (fun _ => 1) (fun n => if n = 0 then (1 : ℝ) else 0) (fun _ _ => 1)
      false false = Except.error e := by
  have hP : ∀ (T2 : Type) (N2 : ℕ) (xi : ℕ → ℝ) (yi : ℕ → T2 → ℝ) (Mx : ℕ)
      (xe : ℕ → ℝ) (der : ℕ), ¬ StrictIncrOn xi N2 →
        ∃ e, validatingPrimitive T2 N2 xi yi Mx xe der = Except.error e := by
    intro T2 N2 xi yi Mx xe der h
    refine ⟨"x must be strictly increasing", ?_⟩
    unfold validatingPrimitive
    rw [if_neg h]
  have hbad : ¬ StrictIncrOn (fun n => if n = 0 then (1 : ℝ) else 0) 2 := by
    intro h
    have h2 := h 0 1 one_pos one_lt_two
    norm_num at h2
  exact ⟨hP, hbad,
    C7_invalid_frequencies_fail validatingPrimitive 1 Unit 2 (fun _ => 1)
      (fun n => if n = 0 then (1 : ℝ) else 0) (fun _ _ => 1) false false hP hbad⟩

/-- Claim C1: for every strictly increasing frequency grid of length `N >= 2`,
all times and all function samples, the base integral (both correction flags
off) computed by `fourier_integral_fixed_sampling_pchip` is the sum over the
`N - 1` sub-intervals of
`Δω_k * e^(i ω_k t) * (f_k*Φ(-x)*e^(ix) + f_(k+1)*Φ(x) - Δω_k*f'_k*Ψ(-x)*e^(ix) + Δω_k*f'_(k+1)*Ψ(x))`
with `x = Δω_k * t`, where `f_k` is the sampled value and `f'_k` the
pchip derivative at node `k` (hypothesis `hd`), and `Φ`, `Ψ` are the kernel
batches returned by `phi_and_psi` on `x` and `-x` (hypotheses `hpp`, `hpm`);
the frequency axis is summed out for each time. -/
theorem C1_base_integral_formula (P : PchipPrimitive) (M : ℕ) (T : Type)
    (N : ℕ) (times : Fin M → ℝ) (frequencies : ℕ → ℝ) (func_values fd : ℕ → T → ℂ)
    (phi_x psi_x phi_minus_x psi_minus_x : Fin M × Fin (N - 1) → ℂ)
    (_hN : 2 ≤ N) (_hmono : StrictIncrOn frequencies N)
    (hd : complex_pchip P T N (fun k => 2 * Real.pi * frequencies k) func_values
      N (fun k => 2 * Real.pi * frequencies k) 1 = Except.ok fd)
    (hpp : phi_and_psi (kernelArg M N times (fun k => 2 * Real.pi * frequencies k)) =
      Except.ok (phi_x, psi_x))
    (hpm : phi_and_psi (fun p => -kernelArg M N times (fun k => 2 * Real.pi * frequencies k) p) =
      Except.ok (phi_minus_x, psi_minus_x)) :
    fourier_integral_fixed_sampling_pchip P M T N times frequencies func_values false false =
      Except.ok (fun t τ =>
        ∑ k : Fin (N - 1),
          ((deltaOmega (fun k2 => 2 * Real.pi * frequencies k2) (k : ℕ) : ℝ) : ℂ) *
            Complex.exp (Complex.I * ((2 * Real.pi * frequencies (k : ℕ) : ℝ) : ℂ) *
              ((times t : ℝ) : ℂ)) *
            (func_values (k : ℕ) τ * phi_minus_x (t, k) *
                Complex.exp (Complex.I *
                  ((deltaOmega (fun k2 => 2 * Real.pi * frequencies k2) (k : ℕ) * times t : ℝ) : ℂ)) +
              func_values ((k : ℕ) + 1) τ * phi_x (t, k) -
              ((deltaOmega (fun k2 => 2 * Real.pi * frequencies k2) (k : ℕ) : ℝ) : ℂ) *
                fd (k : ℕ) τ * psi_minus_x (t, k) *
                Complex.exp (Complex.I *
                  ((deltaOmega (fun k2 => 2 * Real.pi * frequencies k2) (k : ℕ) * times t : ℝ) : ℂ)) +
              ((deltaOmega (fun k2 => 2 * Real.pi * frequencies k2) (k : ℕ) : ℝ) : ℂ) *
                fd ((k : ℕ) + 1) τ * psi_x (t, k))) := by
  rw [fourier_integral_noflags P M T N times frequencies func_values fd
    phi_x psi_x phi_minus_x psi_minus_x hd hpp hpm]
  rfl

lemma witness_kernelArg_eq (i : Fin 1 × Fin (2 - 1)) :
    kernelArg 1 2 (fun _ => (1 : ℝ)) (fun k => 2 * Real.pi * (k : ℝ)) i = 2 * Real.pi := by
  obtain ⟨t, k⟩ := i
  have hk : (k : ℕ) = 0 := by omega
  simp only [kernelArg, deltaOmega, hk]
  push_cast
  ring

lemma witnessBatch_pos_closed :
    ∀ i : Fin 1 × Fin (2 - 1),
      ¬ (|kernelArg 1 2 (fun _ => (1 : ℝ)) (fun k => 2 * Real.pi * (k : ℝ)) i| < 1) := by
  intro i h
  rw [witness_kernelArg_eq i, abs_of_nonneg (by positivity)] at h
  nlinarith [Real.pi_gt_three]

lemma witnessBatch_neg_closed :
    ∀ i : Fin 1 × Fin (2 - 1),
      ¬ (|(fun p => -kernelArg 1 2 (fun _ => (1 : ℝ)) (fun k => 2 * Real.pi * (k : ℝ)) p) i| < 1) := by
  intro i h
  simp only at h
  rw [witness_kernelArg_eq i, abs_neg, abs_of_nonneg (by positivity)] at h
  nlinarith [Real.pi_gt_three]

theorem C1_witness :
    (2 ≤ 2) ∧ StrictIncrOn (fun n : ℕ => (n : ℝ)) 2 ∧
    complex_pchip trivialPrimitive Unit 2 (fun k => 2 * Real.pi * (k : ℝ))
        (fun _ _ => 1) 2 (fun k => 2 * Real.pi * (k : ℝ)) 1 =
      Except.ok (fun (_ : ℕ) (_ : Unit) => ((0 : ℝ) : ℂ) + Complex.I * ((0 : ℝ) : ℂ)) ∧
    phi_and_psi (kernelArg 1 2 (fun _ => (1 : ℝ)) (fun k => 2 * Real.pi * (k : ℝ))) =
      Except.ok
        (fun i => phiClosed (kernelArg 1 2 (fun _ => (1 : ℝ)) (fun k => 2 * Real.pi * (k : ℝ)) i),
         fun i => psiClosed (kernelArg 1 2 (fun _ => (1 : ℝ)) (fun k => 2 * Real.pi * (k : ℝ)) i)) ∧
    phi_and_psi (fun p => -kernelArg 1 2 (fun _ => (1 : ℝ)) (fun k => 2 * Real.pi * (k : ℝ)) p) =
      Except.ok
        (fun i => phiClosed (-kernelArg 1 2 (fun _ => (1 : ℝ)) (fun k => 2 * Real.pi * (k : ℝ)) i),
         fun i => psiClosed (-kernelArg 1 2 (fun _ => (1 : ℝ)) (fun k => 2 * Real.pi * (k : ℝ)) i)) ∧
    fourier_integral_fixed_sampling_pchip trivialPrimitive 1 Unit 2 (fun _ => 1)
        (fun n => (n : ℝ)) (fun _ _ => 1) false false =
      Except.ok (fun (t : Fin 1) (_ : Unit) =>
        ∑ k : Fin (2 - 1),
          ((deltaOmega (fun k2 => 2 * Real.pi * (k2 : ℝ)) (k : ℕ) : ℝ) : ℂ) *
            Complex.exp (Complex.I * ((2 * Real.pi * ((k : ℕ) : ℝ) : ℝ) : ℂ) * ((1 : ℝ) : ℂ)) *
            ((1 : ℂ) *
                phiClosed (-kernelArg 1 2 (fun _ => (1 : ℝ)) (fun k2 => 2 * Real.pi * (k2 : ℝ)) (t, k)) *
                Complex.exp (Complex.I *
                  ((deltaOmega (fun k2 => 2 * Real.pi * (k2 : ℝ)) (k : ℕ) * (1 : ℝ) : ℝ) : ℂ)) +
              (1 : ℂ) *
                phiClosed (kernelArg 1 2 (fun _ => (1 : ℝ)) (fun k2 => 2 * Real.pi * (k2 : ℝ)) (t, k)) -
              ((deltaOmega (fun k2 => 2 * Real.pi * (k2 : ℝ)) (k : ℕ) : ℝ) : ℂ) *
                (((0 : ℝ) : ℂ) + Complex.I * ((0 : ℝ) : ℂ)) *
                psiClosed (-kernelArg 1 2 (fun _ => (1 : ℝ)) (fun k2 => 2 * Real.pi * (k2 : ℝ)) (t, k)) *
                Complex.exp (Complex.I *
                  ((deltaOmega (fun k2 => 2 * Real.pi * (k2 : ℝ)) (k : ℕ) * (1 : ℝ) : ℝ) : ℂ)) +
              ((deltaOmega (fun k2 => 2 * Real.pi * (k2 : ℝ)) (k : ℕ) : ℝ) : ℂ) *
                (((0 : ℝ) : ℂ) + Complex.I * ((0 : ℝ) : ℂ)) *
                psiClosed (kernelArg 1 2 (fun _ => (1 : ℝ)) (fun k2 => 2 * Real.pi * (k2 : ℝ)) (t, k)))) := by
  have hmono : StrictIncrOn (fun n : ℕ => (n : ℝ)) 2 := by
    intro i j hij hj
    show (i : ℝ) < (j : ℝ)
    exact_mod_cast hij
  refine ⟨by norm_num, hmono, rfl,
    phi_and_psi_all_closed _ witnessBatch_pos_closed,
    phi_and_psi_all_closed _ witnessBatch_neg_closed, ?_⟩
  exact C1_base_integral_formula trivialPrimitive 1 Unit 2 (fun _ => 1)
    (fun n => (n : ℝ)) (fun _ _ => 1)
    (fun _ _ => ((0 : ℝ) : ℂ) + Complex.I * ((0 : ℝ) : ℂ))
    (fun i => phiClosed (kernelArg 1 2 (fun _ => (1 : ℝ)) (fun k => 2 * Real.pi * (k : ℝ)) i))
    (fun i => psiClosed (kernelArg 1 2 (fun _ => (1 : ℝ)) (fun k => 2 * Real.pi * (k : ℝ)) i))
    (fun i => phiClosed (-kernelArg 1 2 (fun _ => (1 : ℝ)) (fun k => 2 * Real.pi * (k : ℝ)) i))
    (fun i => psiClosed (-kernelArg 1 2 (fun _ => (1 : ℝ)) (fun k => 2 * Real.pi * (k : ℝ)) i))
    (by norm_num) hmono rfl
    (phi_and_psi_all_closed _ witnessBatch_pos_closed)
    (phi_and_psi_all_closed _ witnessBatch_neg_closed)

lemma filonBaseSum_smul (M N : ℕ) (times : Fin M → ℝ) (omegas : ℕ → ℝ)
    (g : ℕ → ℂ) (fdS : ℕ → Unit → ℂ) (c : Fin 2 × Fin 2 → ℂ)
    (phi_x psi_x phi_minus_x psi_minus_x : Fin M × Fin (N - 1) → ℂ)
    (t : Fin M) (τ : Fin 2 × Fin 2) :
    filonBaseSum M N (Fin 2 × Fin 2) times omegas (fun k τ2 => c τ2 * g k)
      (fun m2 τ2 => c τ2 * fdS m2 Unit.unit) phi_x psi_x phi_minus_x psi_minus_x t τ =
    c τ * filonBaseSum M N Unit times omegas (fun k _ => g k) fdS
      phi_x psi_x phi_minus_x psi_minus_x t Unit.unit := by
  unfold filonBaseSum
  rw [Finset.mul_sum]
  exact Finset.sum_congr rfl fun k _ => by ring

lemma inf_correction_smul (M : ℕ) (times : Fin M → ℝ) (w : ℝ) (g : ℕ → ℂ)
    (fdS : ℕ → Unit → ℂ) (c : Fin 2 × Fin 2 → ℂ) (n0 : ℕ) (b : Bool)
    (t : Fin M) (τ : Fin 2 × Fin 2) :
    fourier_integral_inf_correction M (Fin 2 × Fin 2) times w
      (fun τ2 => c τ2 * g n0) (fun τ2 => c τ2 * fdS n0 Unit.unit) b t τ =
    c τ * fourier_integral_inf_correction M Unit times w (fun _ => g n0)
      (fdS n0) b t Unit.unit := by
  unfold fourier_integral_inf_correction
  ring

/-- Claim C9: with func_values of trailing shape `(2, 2)` obtained by scaling a
common scalar sample array `g` by a constant factor array `c`, the integral has
shape `(M, 2, 2)` (result type `Fin M → Fin 2 × Fin 2 → ℂ`), and each trailing
position equals the scalar-case result multiplied by the corresponding
constant factor, consistent with the scalar computation.  Hypotheses `hdS` and
`hdT` state that the external interpolation primitive reports the
correspondingly scaled derivatives (true of pchip for constant factors and
part of its contract, not of this module). -/
theorem C9_trailing_shape_scaling (P : PchipPrimitive) (M N : ℕ)
    (times : Fin M → ℝ) (frequencies : ℕ → ℝ) (g : ℕ → ℂ)
    (c : Fin 2 × Fin 2 → ℂ) (pos neg : Bool) (fdS : ℕ → Unit → ℂ)
    (rS : Fin M → Unit → ℂ)
    (hdS : complex_pchip P Unit N (fun k => 2 * Real.pi * frequencies k)
      (fun k _ => g k) N (fun k => 2 * Real.pi * frequencies k) 1 = Except.ok fdS)
    (hdT : complex_pchip P (Fin 2 × Fin 2) N (fun k => 2 * Real.pi * frequencies k)
      (fun k τ => c τ * g k) N (fun k => 2 * Real.pi * frequencies k) 1 =
        Except.ok (fun m τ => c τ * fdS m Unit.unit))
    (hS : fourier_integral_fixed_sampling_pchip P M Unit N times frequencies
      (fun k _ => g k) pos neg = Except.ok rS) :
    fourier_integral_fixed_sampling_pchip P M (Fin 2 × Fin 2) N times frequencies
      (fun k τ => c τ * g k) pos neg =
        Except.ok (fun t τ => c τ * rS t Unit.unit) := by
  unfold fourier_integral_fixed_sampling_pchip at hS ⊢
  simp only [hdS] at hS
  simp only [hdT]
  rcases hx : phi_and_psi (kernelArg M N times fun k => 2 * Real.pi * frequencies k)
    with e | ⟨phi_x, psi_x⟩
  · simp only [hx] at hS
    exact Except.noConfusion hS
  · rcases hy : phi_and_psi
        (fun p => -kernelArg M N times (fun k => 2 * Real.pi * frequencies k) p)
      with e | ⟨phi_minus_x, psi_minus_x⟩
    · simp only [hx, hy] at hS
      exact Except.noConfusion hS
    · simp only [hx, hy] at hS ⊢
      rw [Except.ok.injEq] at hS ⊢
      funext t τ
      rw [← hS]
      cases pos <;> cases neg <;>
        simp only [Bool.false_eq_true, if_false, if_true] <;>
        rw [filonBaseSum_smul M N times (fun k => 2 * Real.pi * frequencies k)
          g fdS c phi_x psi_x phi_minus_x psi_minus_x t τ]
      · ring
      · rw [inf_correction_smul M times (2 * Real.pi * frequencies 0) g fdS c 0 false t τ]
        ring
      · rw [inf_correction_smul M times (2 * Real.pi * frequencies (N - 1)) g fdS c (N - 1) true t τ]
        ring
      · rw [inf_correction_smul M times (2 * Real.pi * frequencies (N - 1)) g fdS c (N - 1) true t τ,
          inf_correction_smul M times (2 * Real.pi * frequencies 0) g fdS c 0 false t τ]
        ring

theorem C9_witness :
    complex_pchip trivialPrimitive Unit 2 (fun k => 2 * Real.pi * (k : ℝ))
        (fun _ _ => 1) 2 (fun k => 2 * Real.pi * (k : ℝ)) 1 =
      Except.ok (fun (_ : ℕ) (_ : Unit) => ((0 : ℝ) : ℂ) + Complex.I * ((0 : ℝ) : ℂ)) ∧
    complex_pchip trivialPrimitive (Fin 2 × Fin 2) 2 (fun k => 2 * Real.pi * (k : ℝ))
        (fun (_ : ℕ) (_ : Fin 2 × Fin 2) => (2 : ℂ) * 1) 2
        (fun k => 2 * Real.pi * (k : ℝ)) 1 =
      Except.ok (fun (_ : ℕ) (_ : Fin 2 × Fin 2) =>
        (2 : ℂ) * (((0 : ℝ) : ℂ) + Complex.I * ((0 : ℝ) : ℂ))) ∧
    fourier_integral_fixed_sampling_pchip trivialPrimitive 1 Unit 2 (fun _ => 1)
        (fun n => (n : ℝ)) (fun _ _ => 1) false false =
      Except.ok (filonBaseSum 1 2 Unit (fun _ => 1) (fun k => 2 * Real.pi * (k : ℝ))
        (fun _ _ => 1) (fun _ _ => ((0 : ℝ) : ℂ) + Complex.I * ((0 : ℝ) : ℂ))
        (fun i => phiClosed (kernelArg 1 2 (fun _ => (1 : ℝ)) (fun k => 2 * Real.pi * (k : ℝ)) i))
        (fun i => psiClosed (kernelArg 1 2 (fun _ => (1 : ℝ)) (fun k => 2 * Real.pi * (k : ℝ)) i))
        (fun i => phiClosed (-kernelArg 1 2 (fun _ => (1 : ℝ)) (fun k => 2 * Real.pi * (k : ℝ)) i))
        (fun i => psiClosed (-kernelArg 1 2 (fun _ => (1 : ℝ)) (fun k => 2 * Real.pi * (k : ℝ)) i))) ∧
    fourier_integral_fixed_sampling_pchip trivialPrimitive 1 (Fin 2 × Fin 2) 2 (fun _ => 1)
        (fun n => (n : ℝ)) (fun (_ : ℕ) (_ : Fin 2 × Fin 2) => (2 : ℂ) * 1) false false =
      Except.ok (fun t (_ : Fin 2 × Fin 2) =>
        (2 : ℂ) * filonBaseSum 1 2 Unit (fun _ => 1) (fun k => 2 * Real.pi * (k : ℝ))
          (fun _ _ => 1) (fun _ _ => ((0 : ℝ) : ℂ) + Complex.I * ((0 : ℝ) : ℂ))
          (fun i => phiClosed (kernelArg 1 2 (fun _ => (1 : ℝ)) (fun k => 2 * Real.pi * (k : ℝ)) i))
          (fun i => psiClosed (kernelArg 1 2 (fun _ => (1 : ℝ)) (fun k => 2 * Real.pi * (k : ℝ)) i))
          (fun i => phiClosed (-kernelArg 1 2 (fun _ => (1 : ℝ)) (fun k => 2 * Real.pi * (k : ℝ)) i))
          (fun i => psiClosed (-kernelArg 1 2 (fun _ => (1 : ℝ)) (fun k => 2 * Real.pi * (k : ℝ)) i))
          t Unit.unit) := by
  have hdT : complex_pchip trivialPrimitive (Fin 2 × Fin 2) 2 (fun k => 2 * Real.pi * (k : ℝ))
      (fun (_ : ℕ) (_ : Fin 2 × Fin 2) => (2 : ℂ) * 1) 2
      (fun k => 2 * Real.pi * (k : ℝ)) 1 =
      Except.ok (fun (_ : ℕ) (_ : Fin 2 × Fin 2) =>
        (2 : ℂ) * (((0 : ℝ) : ℂ) + Complex.I * ((0 : ℝ) : ℂ))) := by
    show Except.ok (fun (_ : ℕ) (_ : Fin 2 × Fin 2) =>
      ((0 : ℝ) : ℂ) + Complex.I * ((0 : ℝ) : ℂ)) = _
    rw [Except.ok.injEq]
    funext m τ
    simp
  have hS : fourier_integral_fixed_sampling_pchip trivialPrimitive 1 Unit 2 (fun _ => 1)
      (fun n => (n : ℝ)) (fun _ _ => 1) false false =
      Except.ok (filonBaseSum 1 2 Unit (fun _ => 1) (fun k => 2 * Real.pi * (k : ℝ))
        (fun _ _ => 1) (fun _ _ => ((0 : ℝ) : ℂ) + Complex.I * ((0 : ℝ) : ℂ))
        (fun i => phiClosed (kernelArg 1 2 (fun _ => (1 : ℝ)) (fun k => 2 * Real.pi * (k : ℝ)) i))
        (fun i => psiClosed (kernelArg 1 2 (fun _ => (1 : ℝ)) (fun k => 2 * Real.pi * (k : ℝ)) i))
        (fun i => phiClosed (-kernelArg 1 2 (fun _ => (1 : ℝ)) (fun k => 2 * Real.pi * (k : ℝ)) i))
        (fun i => psiClosed (-kernelArg 1 2 (fun _ => (1 : ℝ)) (fun k => 2 * Real.pi * (k : ℝ)) i))) :=
    fourier_integral_noflags trivialPrimitive 1 Unit 2 (fun _ => 1) (fun n => (n : ℝ))
      (fun _ _ => 1) (fun _ _ => ((0 : ℝ) : ℂ) + Complex.I * ((0 : ℝ) : ℂ))
      (fun i => phiClosed (kernelArg 1 2 (fun _ => (1 : ℝ)) (fun k => 2 * Real.pi * (k : ℝ)) i))
      (fun i => psiClosed (kernelArg 1 2 (fun _ => (1 : ℝ)) (fun k => 2 * Real.pi * (k : ℝ)) i))
      (fun i => phiClosed (-kernelArg 1 2 (fun _ => (1 : ℝ)) (fun k => 2 * Real.pi * (k : ℝ)) i))
      (fun i => psiClosed (-kernelArg 1 2 (fun _ => (1 : ℝ)) (fun k => 2 * Real.pi * (k : ℝ)) i))
      rfl (phi_and_psi_all_closed _ witnessBatch_pos_closed)
      (phi_and_psi_all_closed _ witnessBatch_neg_closed)
  exact ⟨rfl, hdT, hS,
    C9_trailing_shape_scaling trivialPrimitive 1 2 (fun _ => 1) (fun n => (n : ℝ))
      (fun _ => 1) (fun _ => 2) false false
      (fun _ _ => ((0 : ℝ) : ℂ) + Complex.I * ((0 : ℝ) : ℂ)) _ rfl hdT hS⟩
